import Mathlib

/-!
Shallow embedding of the kindle-notes exporter (`kindle_exporter.py`): the
filename sanitizer, the book enumerator, the annotation collector with its
header parser, the markdown document writer, and the per-book loop of `main`.
DOM access is abstracted: a rendered element is an `Option String` (absent or
its `inner_text()`), and the bounded waits appear as explicit readiness flags.
-/

/-- Characters removed by `sanitize_filename`: the class in the regex of line 27. -/
def illegalChar (c : Char) : Bool :=
  c = '<' || c = '>' || c = ':' || c = '"' || c = '/' || c = '\\' || c = '|' || c = '?' || c = '*'

/-- Remove trailing characters satisfying `bad`, as Python `rstrip` does. -/
def dropTrail (bad : Char → Bool) (s : List Char) : List Char :=
  (s.reverse.dropWhile bad).reverse

/-- Remove leading and trailing characters satisfying `bad`, as Python `strip` does. -/
def stripBoth (bad : Char → Bool) (s : List Char) : List Char :=
  dropTrail bad (s.dropWhile bad)

/-- Python `str.strip()` with no argument: whitespace removed at both ends. -/
def pyStrip (s : String) : String :=
  (stripBoth (fun c => c.isWhitespace) s.toList).asString

/-- The characters stripped at both ends by `name.strip('. ')`. -/
def dotSpace (c : Char) : Bool := c = '.' || c = ' '

/-- The sanitizer before truncation: illegal characters removed, then `strip('. ')`. -/
def sanitizeCore (name : String) : List Char :=
  stripBoth dotSpace (name.toList.filter (fun c => !illegalChar c))

/-- Embeds `sanitize_filename` (lines 25-29): remove illegal characters,
    strip dots and spaces at both ends, then truncate to 200 characters. -/
def sanitize_filename (name : String) : String :=
  ((sanitizeCore name).take 200).asString

/-- The ExportKey of the spec: the sanitized `"{title} - {author}"` string. -/
def exportKey (title author : String) : String :=
  sanitize_filename (title ++ " - " ++ author)

/-- Case-insensitive test that `pat` (given in lowercase) occurs at the start of `s`. -/
def lowerStarts (pat s : List Char) : Bool :=
  (s.take pat.length).map Char.toLower == pat

/-- After a matched label, the regex continues `\s*(\S+)`: skip whitespace, then
    read a maximal nonempty run of non-whitespace characters. -/
def tokenAfter (s : List Char) : Option (List Char) :=
  let rest := s.dropWhile (fun c => c.isWhitespace)
  let tok := rest.takeWhile (fun c => !c.isWhitespace)
  if tok = [] then none else some tok

/-- Attempt the full pattern (label, `\s*`, `\S+`) at this exact position. -/
def matchLabelAt (pat s : List Char) : Option (List Char) :=
  if lowerStarts pat s then tokenAfter (s.drop pat.length) else none

/-- `re.search` for `label\s*(\S+)`: scan left to right, return the token of
    the first position where the whole pattern matches. -/
def searchLabel (pat : List Char) : List Char → Option (List Char)
  | [] => none
  | c :: cs =>
    match matchLabelAt pat (c :: cs) with
    | some t => some t
    | none => searchLabel pat cs

/-- Python `rstrip(',')` applied to the captured token. -/
def rstripCommas (s : List Char) : List Char := dropTrail (fun c => c = ',') s

/-- The regex class `\w` for the color token: letters, digits, underscore. -/
def wordChar (c : Char) : Bool := c.isAlphanum || c = '_'

/-- Embeds `re.match(r'(\w+)\s+highlight', header_text, re.IGNORECASE)` (line 101):
    anchored at the start, a word token, whitespace, then the literal `highlight`. -/
def matchColor (s : List Char) : Option (List Char) :=
  let w := s.takeWhile wordChar
  if w = [] then none
  else
    let r1 := s.drop w.length
    let sp := r1.takeWhile (fun c => c.isWhitespace)
    if sp = [] then none
    else if lowerStarts ("highlight".toList) (r1.drop sp.length) then some w else none

/-- The three fields parsed out of an annotation header. -/
structure HeaderFields where
  color : String
  page : String
  location : String
  deriving DecidableEq, Repr

/-- Embeds the header-parsing block of `extract_highlights` (lines 89-103). -/
def parse_header (header_text : String) : HeaderFields :=
  let cs := header_text.toList
  let location := match searchLabel ("location:".toList) cs with
    | some t => (rstripCommas t).asString
    | none => ""
  let page := match searchLabel ("page:".toList) cs with
    | some t => (rstripCommas t).asString
    | none => ""
  let color := match matchColor cs with
    | some w => w.asString
    | none => ""
  ⟨color, page, location⟩

/-- One rendered annotation block: the four optional sub-elements queried by
    `extract_highlights`, each carrying its `inner_text()` when present. -/
structure AnnBlock where
  highlightEl : Option String
  noteEl : Option String
  hlHeaderEl : Option String
  noteHeaderEl : Option String
  deriving DecidableEq, Repr

/-- One retained highlight/note record (the dict built at lines 106-112). -/
structure Record where
  text : String
  note : String
  location : String
  page : String
  color : String
  deriving DecidableEq, Repr

/-- Highlight text of a block: stripped inner text, empty when absent (line 75). -/
def highlightTextOf (b : AnnBlock) : String :=
  match b.highlightEl with
  | some t => pyStrip t
  | none => ""

/-- Note text of a block: stripped inner text, empty when absent (line 79). -/
def noteTextOf (b : AnnBlock) : String :=
  match b.noteEl with
  | some t => pyStrip t
  | none => ""

/-- Header text of a block: the highlight header when present, else the note
    header, else empty (lines 82-85). -/
def headerTextOf (b : AnnBlock) : String :=
  match b.hlHeaderEl with
  | some t => pyStrip t
  | none =>
    match b.noteHeaderEl with
    | some t => pyStrip t
    | none => ""

/-- The record a block renders to, before the retention check. -/
def mkRecord (b : AnnBlock) : Record :=
  let h := parse_header (headerTextOf b)
  { text := highlightTextOf b, note := noteTextOf b,
    location := h.location, page := h.page, color := h.color }

/-- The retention test `if highlight_text or note_text` (line 105). -/
def keepRecord (r : Record) : Bool := !(r.text == "") || !(r.note == "")

/-- The accumulation loop of `extract_highlights` (lines 71-112). -/
def collectLoop (acc : List Record) : List AnnBlock → List Record
  | [] => acc
  | b :: bs =>
    let r := mkRecord b
    collectLoop (if keepRecord r then acc ++ [r] else acc) bs

/-- Embeds `extract_highlights`: when the bounded wait for the annotation list
    fails, the result is `[]` (lines 56-62); otherwise the loop over the
    rendered blocks runs. -/
def extract_highlights (ready : Bool) (blocks : List AnnBlock) : List Record :=
  if ready then collectLoop [] blocks else []

/-- One rendered library entry: optional title element and author element. -/
structure BookEl where
  titleEl : Option String
  authorEl : Option String
  deriving DecidableEq, Repr

/-- A book identity as enumerated from the sidebar. -/
structure Book where
  title : String
  author : String
  deriving DecidableEq, Repr

/-- Embeds `re.sub(r'^By:\s*', '', author, flags=re.IGNORECASE)` (line 48):
    anchored, so at most the one leading occurrence is removed. -/
def stripByMarker (a : String) : String :=
  let cs := a.toList
  if lowerStarts ("by:".toList) cs then
    ((cs.drop 3).dropWhile (fun c => c.isWhitespace)).asString
  else a

/-- The book built from one library entry (lines 43-49). -/
def mkBook (e : BookEl) : Book :=
  let title := match e.titleEl with
    | some t => pyStrip t
    | none => "Unknown Title"
  let author := match e.authorEl with
    | some t => pyStrip t
    | none => "Unknown Author"
  { title := title, author := stripByMarker author }

/-- The accumulation loop of `extract_books` (lines 41-49). -/
def booksLoop (acc : List Book) : List BookEl → List Book
  | [] => acc
  | e :: es => booksLoop (acc ++ [mkBook e]) es

/-- Embeds `extract_books` over the rendered sidebar entries. -/
def extract_books (els : List BookEl) : List Book := booksLoop [] els

/-- The fixed leading lines of the document (lines 122-128). -/
def headerLines (book_title author : String) : List String :=
  ["# " ++ book_title, "**Author:** " ++ author, "", "---", ""]

/-- The metadata parts of one record, location first, then page (lines 138-142). -/
def metaParts (hl : Record) : List String :=
  (if hl.location ≠ "" then ["**Location:** " ++ hl.location] else []) ++
  (if hl.page ≠ "" then ["**Page:** " ++ hl.page] else [])

/-- The body of the for-loop of `write_markdown` (lines 130-148): the
    conditional appends in source order. -/
def writeLoopStep (lines : List String) (hl : Record) : List String :=
  let lines := if hl.text ≠ "" then lines ++ ["> " ++ hl.text, ""] else lines
  let lines := if hl.note ≠ "" then lines ++ ["**Note:** " ++ hl.note] else lines
  let lines := if metaParts hl ≠ [] then
    lines ++ [String.intercalate " | " (metaParts hl)] else lines
  lines ++ ["", "---", ""]

/-- The full line list built by `write_markdown`. -/
def write_markdown_lines (book_title author : String) (highlights : List Record) : List String :=
  highlights.foldl writeLoopStep (headerLines book_title author)

/-- The text written by `write_markdown`: the lines joined with newlines (line 150). -/
def write_markdown_text (book_title author : String) (highlights : List Record) : String :=
  String.intercalate "\n" (write_markdown_lines book_title author highlights)

/-- The artifact name chosen by `write_markdown` (line 119). -/
def write_markdown_filename (book_title author : String) : String :=
  sanitize_filename (book_title ++ " - " ++ author) ++ ".md"

/-- Spec side: the per-record block of the Document Writer, assembled
    compositionally, following the wording of section 4.5. -/
def recordLines (hl : Record) : List String :=
  (if hl.text ≠ "" then ["> " ++ hl.text, ""] else []) ++
  (if hl.note ≠ "" then ["**Note:** " ++ hl.note] else []) ++
  (if metaParts hl ≠ [] then [String.intercalate " | " (metaParts hl)] else []) ++
  ["", "---", ""]

/-- The output store: artifact contents addressed by filename; `write_text`
    fully overwrites the slot. -/
def storeWrite (store : String → Option String) (k v : String) : String → Option String :=
  fun q => if q = k then some v else store q

/-- The reconciler decision, read off the skip condition at line 207:
    export when the force flag is set or the stem is not among existing files. -/
def should_export (title author : String) (existing : List String) (force : Bool) : Bool :=
  !(!force && existing.contains (sanitize_filename (title ++ " - " ++ author)))

/-- The mutable state of the main loop: the two counters and the notes store. -/
structure RunState where
  exported : Nat
  skipped : Nat
  store : String → Option String

/-- What one book contributes in a run: its identity, whether the bounded wait
    for the annotation container succeeds (line 218), whether the inner wait of
    `extract_highlights` succeeds (line 57), and the rendered blocks. -/
structure BookRun where
  title : String
  author : String
  ready : Bool
  listReady : Bool
  blocks : List AnnBlock

/-- One iteration of the main loop (lines 202-237). -/
def processBook (existing : List String) (force : Bool) (st : RunState) (b : BookRun) : RunState :=
  let file_stem := sanitize_filename (b.title ++ " - " ++ b.author)
  if !force && existing.contains file_stem then
    { st with skipped := st.skipped + 1 }
  else if !b.ready then st
  else
    let highlights := extract_highlights b.listReady b.blocks
    if highlights = [] then st
    else
      { st with
        exported := st.exported + 1,
        store := storeWrite st.store (file_stem ++ ".md")
          (write_markdown_text b.title b.author highlights) }

/-- The whole loop of `main` over the enumerated books, with the snapshot of
    existing stems taken once before the loop (line 177). -/
def runBooks (existing : List String) (force : Bool) (st : RunState) (books : List BookRun) :
    RunState :=
  books.foldl (processBook existing force) st

/-- Spec side: `re.search` described as the first matching position, scanning
    all start offsets in order. -/
def specFirstLabelTok (pat s : List Char) : Option (List Char) :=
  (List.range (s.length + 1)).findSome? (fun i => matchLabelAt pat (s.drop i))

/-- Spec side: the color pattern described as a decomposition, following the
    wording of section 4.1: a leading nonempty word token, whitespace, then the
    word highlight, case-insensitively. -/
def ColorSpec (s w : List Char) : Prop :=
  w ≠ [] ∧ (∀ c ∈ w, wordChar c = true) ∧
  ∃ sp r, s = w ++ sp ++ r ∧ sp ≠ [] ∧ (∀ c ∈ sp, c.isWhitespace = true) ∧
    lowerStarts ("highlight".toList) r = true

theorem mem_dropTrail {bad : Char → Bool} {c : Char} {s : List Char}
    (h : c ∈ dropTrail bad s) : c ∈ s := by
  unfold dropTrail at h
  rw [List.mem_reverse] at h
  exact List.mem_reverse.mp ((List.dropWhile_sublist bad).subset h)

theorem mem_stripBoth {bad : Char → Bool} {c : Char} {s : List Char}
    (h : c ∈ stripBoth bad s) : c ∈ s :=
  (List.dropWhile_sublist bad).subset (mem_dropTrail h)

theorem head?_dropWhile_not {bad : Char → Bool} :
    ∀ {s : List Char} {c : Char}, (s.dropWhile bad).head? = some c → bad c = false := by
  intro s
  induction s with
  | nil => intro c h; simp [List.dropWhile] at h
  | cons a t ih =>
    intro c h
    rw [List.dropWhile_cons] at h
    by_cases hba : bad a = true
    · rw [if_pos hba] at h
      exact ih h
    · rw [if_neg hba] at h
      simp only [List.head?_cons, Option.some.injEq] at h
      subst h
      cases hb : bad a with
      | false => rfl
      | true => exact absurd hb hba

theorem head?_dropTrail {bad : Char → Bool} {s : List Char} {c : Char}
    (h : (dropTrail bad s).head? = some c) : s.head? = some c := by
  have hs : s = dropTrail bad s ++ (s.reverse.takeWhile bad).reverse := by
    unfold dropTrail
    calc s = s.reverse.reverse := (List.reverse_reverse s).symm
    _ = (s.reverse.takeWhile bad ++ s.reverse.dropWhile bad).reverse := by
        rw [List.takeWhile_append_dropWhile]
    _ = (s.reverse.dropWhile bad).reverse ++ (s.reverse.takeWhile bad).reverse := by
        rw [List.reverse_append]
  rw [hs, List.head?_append, h]
  rfl

theorem head?_stripBoth_not {bad : Char → Bool} {s : List Char} {c : Char}
    (h : (stripBoth bad s).head? = some c) : bad c = false := by
  unfold stripBoth at h
  exact head?_dropWhile_not (head?_dropTrail h)

theorem getLast?_dropTrail_not {bad : Char → Bool} {s : List Char} {c : Char}
    (h : (dropTrail bad s).getLast? = some c) : bad c = false := by
  unfold dropTrail at h
  rw [List.getLast?_eq_head?_reverse, List.reverse_reverse] at h
  exact head?_dropWhile_not h

theorem head?_take_pos (l : List Char) (n : Nat) (hn : n ≠ 0) :
    (l.take n).head? = l.head? := by
  cases n with
  | zero => exact absurd rfl hn
  | succ m => cases l <;> simp

theorem parse_header_empty : parse_header "" = ⟨"", "", ""⟩ := by decide

theorem collectLoop_eq (acc : List Record) (bs : List AnnBlock) :
    collectLoop acc bs = acc ++ (bs.map mkRecord).filter keepRecord := by
  induction bs generalizing acc with
  | nil => simp [collectLoop]
  | cons b t ih =>
    by_cases hk : keepRecord (mkRecord b) = true
    · simp [collectLoop, hk, ih, List.filter_cons]
    · simp [collectLoop, hk, ih, List.filter_cons]

theorem booksLoop_eq (acc : List Book) (es : List BookEl) :
    booksLoop acc es = acc ++ es.map mkBook := by
  induction es generalizing acc with
  | nil => simp [booksLoop]
  | cons e t ih => simp [booksLoop, ih]

/-- C1: the collector's output contains exactly the rendered blocks whose
    highlight text or note text is non-empty, one record per retained block,
    in the original rendered order with no re-sorting. -/
theorem c1_collector_exact (blocks : List AnnBlock) :
    extract_highlights true blocks = (blocks.map mkRecord).filter keepRecord
    ∧ (∀ r : Record, keepRecord r = true ↔ (r.text ≠ "" ∨ r.note ≠ ""))
    ∧ ∀ r ∈ extract_highlights true blocks, r.text ≠ "" ∨ r.note ≠ "" := by
  have h1 : extract_highlights true blocks = (blocks.map mkRecord).filter keepRecord := by
    simp [extract_highlights, collectLoop_eq]
  have h2 : ∀ r : Record, keepRecord r = true ↔ (r.text ≠ "" ∨ r.note ≠ "") := by
    intro r
    simp [keepRecord]
  refine ⟨h1, h2, ?_⟩
  intro r hr
  rw [h1] at hr
  exact (h2 r).mp (List.mem_filter.mp hr).2

/-- C4: the reconciler exports iff the force flag is set or the key is absent;
    force always exports, a present key with no force never does, and an empty
    existing set always exports. -/
theorem c4_reconciler_decision (title author : String) (existing : List String) (force : Bool) :
    (should_export title author existing force = true ↔
      (force = true ∨ exportKey title author ∉ existing))
    ∧ should_export title author existing true = true
    ∧ should_export title author [exportKey title author] false = false
    ∧ should_export title author [] false = true := by
  refine ⟨?_, rfl, ?_, rfl⟩
  · simp [should_export, exportKey, List.elem_iff]
  · simp [should_export, exportKey, List.elem_iff]

/-- C7: the enumerator returns one book per rendered entry in sidebar order;
    a missing title element gives the default title, the author text loses a
    leading case-insensitive by-marker and defaults when absent. -/
theorem c7_book_enumeration (els : List BookEl) (t a : String) (ot oa : Option String) :
    extract_books els = els.map mkBook
    ∧ (mkBook ⟨none, oa⟩).title = "Unknown Title"
    ∧ (mkBook ⟨some t, oa⟩).title = pyStrip t
    ∧ (mkBook ⟨ot, none⟩).author = "Unknown Author"
    ∧ (mkBook ⟨ot, some a⟩).author = stripByMarker (pyStrip a)
    ∧ stripByMarker "By: Jane Doe" = "Jane Doe"
    ∧ stripByMarker "bY: jane" = "jane"
    ∧ stripByMarker "Plain Author" = "Plain Author" := by
  refine ⟨by simp [extract_books, booksLoop_eq], rfl, rfl, rfl, rfl, by decide, by decide, by decide⟩

/-- C9: the header text comes from the highlight header when present, else
    from the note header, and with both absent it is empty and all three
    parsed fields are empty. -/
theorem c9_header_selection (b : AnnBlock) :
    (∀ h, b.hlHeaderEl = some h → headerTextOf b = pyStrip h)
    ∧ (b.hlHeaderEl = none → ∀ h, b.noteHeaderEl = some h → headerTextOf b = pyStrip h)
    ∧ (b.hlHeaderEl = none → b.noteHeaderEl = none →
        headerTextOf b = ""
        ∧ (mkRecord b).location = "" ∧ (mkRecord b).page = "" ∧ (mkRecord b).color = "") := by
  obtain ⟨he, ne, hh, nh⟩ := b
  refine ⟨?_, ?_, ?_⟩
  · intro h heq
    simp only at heq
    subst heq
    rfl
  · intro h1 h heq
    simp only at h1 heq
    subst h1
    subst heq
    rfl
  · intro h1 h2
    simp only at h1 h2
    subst h1
    subst h2
    refine ⟨rfl, ?_, ?_, ?_⟩ <;>
      simp [mkRecord, headerTextOf, parse_header_empty]

/-- C9 witness: a block with neither header element yields empty header text
    and empty parsed fields. -/
theorem c9_header_selection_witness :
    headerTextOf ⟨some "hi", none, none, none⟩ = ""
    ∧ (mkRecord ⟨some "hi", none, none, none⟩).location = ""
    ∧ (mkRecord ⟨some "hi", none, none, none⟩).page = ""
    ∧ (mkRecord ⟨some "hi", none, none, none⟩).color = "" :=
  (c9_header_selection ⟨some "hi", none, none, none⟩).2.2 rfl rfl

/-- C3 (amended): the key is deterministic, contains no filename-illegal
    characters, is at most 200 characters, never starts with a dot or space,
    and ends with no dot or space whenever no truncation occurs; truncation at
    200 can expose a trailing space or dot. -/
theorem c3_exportKey_props (t a : String) :
    exportKey t a = exportKey t a
    ∧ (∀ c ∈ (exportKey t a).toList, illegalChar c = false)
    ∧ (exportKey t a).length ≤ 200
    ∧ (∀ c, (exportKey t a).toList.head? = some c → dotSpace c = false)
    ∧ ((sanitizeCore (t ++ " - " ++ a)).length ≤ 200 →
        ∀ c, (exportKey t a).toList.getLast? = some c → dotSpace c = false) := by
  have hkey : (exportKey t a).toList = (sanitizeCore (t ++ " - " ++ a)).take 200 := rfl
  refine ⟨rfl, ?_, ?_, ?_, ?_⟩
  · intro c hc
    rw [hkey] at hc
    have hc2 : c ∈ sanitizeCore (t ++ " - " ++ a) := (List.take_sublist _ _).subset hc
    have hc3 := mem_stripBoth hc2
    have := (List.mem_filter.mp hc3).2
    simpa using this
  · have hlen : (exportKey t a).length = ((sanitizeCore (t ++ " - " ++ a)).take 200).length := rfl
    rw [hlen, List.length_take]
    exact Nat.min_le_left _ _
  · intro c h
    rw [hkey, head?_take_pos _ _ (by norm_num)] at h
    exact head?_stripBoth_not h
  · intro hle c h
    rw [hkey, List.take_of_length_le hle] at h
    unfold sanitizeCore stripBoth at h
    exact getLast?_dropTrail_not h

/-- C3 witness: on a short title and author the stripped core is within the
    cap and the key ends in no dot or space. -/
theorem c3_exportKey_props_witness :
    (sanitizeCore ("T" ++ " - " ++ "A")).length ≤ 200
    ∧ ∀ c, (exportKey "T" "A").toList.getLast? = some c → dotSpace c = false :=
  ⟨by decide, (c3_exportKey_props "T" "A").2.2.2.2 (by decide)⟩

set_option maxRecDepth 4000 in
/-- C3 counterexample: a 199-character title means truncation at 200 cuts the
    key right after the separator space, leaving a trailing space. -/
theorem c3_trailing_space_counterexample :
    (exportKey ((List.replicate 199 'a').asString) "X").toList.getLast? = some ' '
    ∧ (exportKey ((List.replicate 199 'a').asString) "X").length = 200 := by
  constructor <;> decide

/-- C10: distinct identities can share one ExportKey, the writer then addresses
    one artifact slot for both, and the later write overwrites the earlier. -/
theorem c10_exportKey_not_injective (st : String → Option String) (d1 d2 : String) :
    (("A/B" : String), ("X" : String)) ≠ (("AB" : String), ("X" : String))
    ∧ exportKey "A/B" "X" = exportKey "AB" "X"
    ∧ write_markdown_filename "A/B" "X" = write_markdown_filename "AB" "X"
    ∧ storeWrite (storeWrite st (write_markdown_filename "A/B" "X") d1)
        (write_markdown_filename "AB" "X") d2 (write_markdown_filename "A/B" "X") = some d2 := by
  have hf : write_markdown_filename "A/B" "X" = write_markdown_filename "AB" "X" := by decide
  refine ⟨by decide, by decide, hf, ?_⟩
  rw [hf]
  simp [storeWrite]

theorem writeLoopStep_eq (lines : List String) (hl : Record) :
    writeLoopStep lines hl = lines ++ recordLines hl := by
  unfold writeLoopStep recordLines
  by_cases h1 : hl.text ≠ "" <;> by_cases h2 : hl.note ≠ "" <;>
    by_cases h3 : metaParts hl ≠ [] <;> simp [h1, h2, h3]

theorem write_markdown_lines_eq (bt au : String) (hs : List Record) :
    write_markdown_lines bt au hs = headerLines bt au ++ (hs.map recordLines).flatten := by
  unfold write_markdown_lines
  generalize headerLines bt au = init
  induction hs generalizing init with
  | nil => simp
  | cons r t ih => simp [List.foldl_cons, writeLoopStep_eq, ih, List.append_assoc]

/-- C6: the rendered document is the heading, author line and separator
    followed per record by its conditional pieces in order, and the full text
    goes to the slot named by the ExportKey plus the markdown suffix,
    overwriting it. -/
theorem c6_document_writer (book_title author : String) (hs : List Record)
    (store : String → Option String) :
    write_markdown_lines book_title author hs
      = headerLines book_title author ++ (hs.map recordLines).flatten
    ∧ write_markdown_filename book_title author = exportKey book_title author ++ ".md"
    ∧ storeWrite store (write_markdown_filename book_title author)
        (write_markdown_text book_title author hs)
        (write_markdown_filename book_title author)
      = some (write_markdown_text book_title author hs) := by
  refine ⟨write_markdown_lines_eq _ _ _, rfl, ?_⟩
  simp [storeWrite]

theorem processBook_eq (existing : List String) (force : Bool) (st : RunState) (b : BookRun) :
    processBook existing force st b =
      if (!force && existing.contains (sanitize_filename (b.title ++ " - " ++ b.author))) then
        { st with skipped := st.skipped + 1 }
      else if !b.ready then st
      else if extract_highlights b.listReady b.blocks = [] then st
      else
        { st with
          exported := st.exported + 1,
          store := storeWrite st.store
            (sanitize_filename (b.title ++ " - " ++ b.author) ++ ".md")
            (write_markdown_text b.title b.author
              (extract_highlights b.listReady b.blocks)) } := rfl

/-- C5: once a book passes the reconciler, a readiness timeout or an empty
    collection leaves the state fully unchanged; the skipped counter moves only
    on the reconciler skip, the exported counter only on a completed write, and
    the loop always continues with the remaining books. -/
theorem c5_per_book_failure (existing : List String) (force : Bool) (st : RunState)
    (b : BookRun) (bs : List BookRun) :
    ((!force && existing.contains (sanitize_filename (b.title ++ " - " ++ b.author))) = false →
      (b.ready = false ∨ extract_highlights b.listReady b.blocks = []) →
      processBook existing force st b = st)
    ∧ ((processBook existing force st b).skipped ≠ st.skipped →
        (!force && existing.contains (sanitize_filename (b.title ++ " - " ++ b.author))) = true
        ∧ processBook existing force st b = { st with skipped := st.skipped + 1 })
    ∧ ((processBook existing force st b).exported ≠ st.exported →
        b.ready = true ∧ extract_highlights b.listReady b.blocks ≠ []
        ∧ processBook existing force st b =
          { st with
            exported := st.exported + 1,
            store := storeWrite st.store
              (sanitize_filename (b.title ++ " - " ++ b.author) ++ ".md")
              (write_markdown_text b.title b.author
                (extract_highlights b.listReady b.blocks)) })
    ∧ runBooks existing force st (b :: bs)
        = runBooks existing force (processBook existing force st b) bs := by
  have hpe := processBook_eq existing force st b
  refine ⟨?_, ?_, ?_, rfl⟩
  · intro hc hfail
    rw [hpe, if_neg (by simp only [hc]; decide)]
    rcases hfail with hr | he
    · rw [if_pos (by simp [hr])]
    · by_cases hr : b.ready = true
      · rw [if_neg (by simp [hr]), if_pos he]
      · have hr2 : b.ready = false := by revert hr; cases b.ready <;> simp
        rw [if_pos (by simp [hr2])]
  · intro hskip
    rw [hpe] at hskip
    by_cases hc :
        (!force && existing.contains (sanitize_filename (b.title ++ " - " ++ b.author))) = true
    · exact ⟨hc, by rw [hpe, if_pos hc]⟩
    · rw [if_neg hc] at hskip
      exfalso
      split at hskip
      · exact hskip rfl
      · split at hskip
        · exact hskip rfl
        · exact hskip rfl
  · intro hexp
    rw [hpe] at hexp
    by_cases hc :
        (!force && existing.contains (sanitize_filename (b.title ++ " - " ++ b.author))) = true
    · rw [if_pos hc] at hexp
      exact absurd rfl hexp
    · rw [if_neg hc] at hexp
      by_cases hr : (!b.ready) = true
      · rw [if_pos hr] at hexp
        exact absurd rfl hexp
      · rw [if_neg hr] at hexp
        by_cases hh : extract_highlights b.listReady b.blocks = []
        · rw [if_pos hh] at hexp
          exact absurd rfl hexp
        · refine ⟨by simpa using hr, hh, ?_⟩
          rw [hpe, if_neg hc, if_neg hr, if_neg hh]

/-- C5 witness: with an empty snapshot and no force, a book whose annotation
    view never becomes ready leaves the run state unchanged. -/
theorem c5_per_book_failure_witness :
    processBook [] false ⟨0, 0, fun _ => none⟩ ⟨"T", "A", false, false, []⟩
      = (⟨0, 0, fun _ => none⟩ : RunState) :=
  (c5_per_book_failure [] false ⟨0, 0, fun _ => none⟩ ⟨"T", "A", false, false, []⟩ []).1
    rfl (Or.inl rfl)

theorem append_md_inj {s1 s2 : String} (h : s1 ++ ".md" = s2 ++ ".md") : s1 = s2 := by
  apply String.ext
  have h2 := congrArg String.data h
  rw [String.data_append, String.data_append] at h2
  exact List.append_cancel_right h2

theorem processBook_store_preserved (existing : List String) (st : RunState) (b : BookRun)
    (s : String) (hs : s ∈ existing) :
    (processBook existing false st b).store (s ++ ".md") = st.store (s ++ ".md") := by
  rw [processBook_eq]
  by_cases hc :
      (!false && existing.contains (sanitize_filename (b.title ++ " - " ++ b.author))) = true
  · rw [if_pos hc]
  · rw [if_neg hc]
    by_cases hr : (!b.ready) = true
    · rw [if_pos hr]
    · rw [if_neg hr]
      by_cases hh : extract_highlights b.listReady b.blocks = []
      · rw [if_pos hh]
      · rw [if_neg hh]
        show storeWrite st.store _ _ (s ++ ".md") = st.store (s ++ ".md")
        unfold storeWrite
        rw [if_neg]
        intro heq
        have hstem : s = sanitize_filename (b.title ++ " - " ++ b.author) := append_md_inj heq
        apply hc
        simp only [Bool.not_false, Bool.true_and]
        rw [← hstem]
        exact List.elem_iff.mpr hs

/-- C8: in a forceless run, a book whose stem is in the pre-run snapshot is
    only counted as skipped, and the artifact of every snapshot key is left
    with its prior contents at the end of the run. -/
theorem c8_second_run_untouched (existing : List String) (st : RunState)
    (books : List BookRun) (s : String) (hs : s ∈ existing) :
    (runBooks existing false st books).store (s ++ ".md") = st.store (s ++ ".md")
    ∧ ∀ b : BookRun,
        sanitize_filename (b.title ++ " - " ++ b.author) ∈ existing →
        processBook existing false st b = { st with skipped := st.skipped + 1 } := by
  constructor
  · induction books generalizing st with
    | nil => rfl
    | cons b t ih =>
      show (runBooks existing false (processBook existing false st b) t).store _ = _
      rw [ih (processBook existing false st b)]
      exact processBook_store_preserved existing st b s hs
  · intro b hb
    rw [processBook_eq, if_pos ?_]
    simp only [Bool.not_false, Bool.true_and]
    exact List.elem_iff.mpr hb

/-- C8 witness: an empty run over a snapshot holding one key leaves that key's
    artifact unchanged. -/
theorem c8_second_run_untouched_witness :
    (runBooks ["k"] false ⟨0, 0, fun _ => none⟩ []).store ("k" ++ ".md")
      = (⟨0, 0, fun _ => none⟩ : RunState).store ("k" ++ ".md") :=
  (c8_second_run_untouched ["k"] ⟨0, 0, fun _ => none⟩ [] "k" (by simp)).1

theorem matchLabelAt_nil (pat : List Char) : matchLabelAt pat [] = none := by
  unfold matchLabelAt
  split <;> simp [tokenAfter]

theorem searchLabel_eq_spec (pat : List Char) (s : List Char) :
    searchLabel pat s = specFirstLabelTok pat s := by
  induction s with
  | nil =>
    have h0 : specFirstLabelTok pat [] = none := by
      unfold specFirstLabelTok
      have hr : List.range (([] : List Char).length + 1) = [0] := rfl
      rw [hr, List.findSome?_cons]
      simp [matchLabelAt_nil]
    rw [h0]
    rfl
  | cons c cs ih =>
    have h1 : specFirstLabelTok pat (c :: cs)
        = match matchLabelAt pat (c :: cs) with
          | some t => some t
          | none => specFirstLabelTok pat cs := by
      unfold specFirstLabelTok
      have hl : (c :: cs).length + 1 = (cs.length + 1) + 1 := by simp
      have hfun : ((fun i => matchLabelAt pat (List.drop i (c :: cs))) ∘ Nat.succ)
          = fun i => matchLabelAt pat (List.drop i cs) := by
        funext i
        simp [Function.comp]
      rw [hl, List.range_succ_eq_map, List.findSome?_cons, List.findSome?_map, hfun]
      simp only [List.drop_zero]
      cases matchLabelAt pat (c :: cs) <;> rfl
    rw [h1]
    show (match matchLabelAt pat (c :: cs) with
          | some t => some t
          | none => searchLabel pat cs)
        = match matchLabelAt pat (c :: cs) with
          | some t => some t
          | none => specFirstLabelTok pat cs
    cases matchLabelAt pat (c :: cs) with
    | some t => rfl
    | none => exact ih

theorem drop_length_takeWhile (p : Char → Bool) (l : List Char) :
    l.drop (l.takeWhile p).length = l.dropWhile p := by
  induction l with
  | nil => rfl
  | cons a t ih =>
    by_cases h : p a = true
    · simp [List.takeWhile_cons, List.dropWhile_cons, h, ih]
    · simp [List.takeWhile_cons, List.dropWhile_cons, h]

theorem takeWhile_append_all (p : Char → Bool) (w x : List Char)
    (hw : ∀ c ∈ w, p c = true) :
    (w ++ x).takeWhile p = w ++ x.takeWhile p := by
  induction w with
  | nil => simp
  | cons a t ih =>
    have ha : p a = true := hw a (by simp)
    simp [List.takeWhile_cons, ha, ih (fun c hc => hw c (by simp [hc]))]

theorem ws_not_word {c : Char} (h : c.isWhitespace = true) : wordChar c = false := by
  have h4 : c = ' ' ∨ c = '\t' ∨ c = '\r' ∨ c = '\n' := by
    simpa [Char.isWhitespace, or_assoc] using h
  rcases h4 with h4 | h4 | h4 | h4 <;> (subst h4; decide)

theorem lowerStarts_highlight_head {r : List Char}
    (h : lowerStarts ("highlight".toList) r = true) :
    ∃ c r2, r = c :: r2 ∧ c.isWhitespace = false := by
  cases r with
  | nil => exact absurd h (by decide)
  | cons c r2 =>
    refine ⟨c, r2, rfl, ?_⟩
    unfold lowerStarts at h
    rw [beq_iff_eq] at h
    rw [show ("highlight".toList).length = 8 + 1 from rfl, List.take_succ_cons,
      List.map_cons] at h
    have hc : Char.toLower c = 'h' := by
      have h2 := congrArg (fun l => l.head?) h
      simpa using h2
    by_contra hw
    have hw2 : c.isWhitespace = true := by revert hw; cases c.isWhitespace <;> simp
    have h4 : c = ' ' ∨ c = '\t' ∨ c = '\r' ∨ c = '\n' := by
      simpa [Char.isWhitespace, or_assoc] using hw2
    rcases h4 with h4 | h4 | h4 | h4 <;> (subst h4; exact absurd hc (by decide))

theorem matchColor_iff (s w : List Char) :
    matchColor s = some w ↔ ColorSpec s w := by
  constructor
  · intro h
    simp only [matchColor] at h
    split at h
    · exact absurd h (by simp)
    · next h1 =>
      split at h
      · exact absurd h (by simp)
      · next h2 =>
        split at h
        · next h3 =>
          rw [Option.some.injEq] at h
          subst h
          refine ⟨h1, fun c hc => List.mem_takeWhile_imp hc, _, _, ?_, h2,
            fun c hc => List.mem_takeWhile_imp hc, h3⟩
          rw [List.append_assoc, drop_length_takeWhile, drop_length_takeWhile,
            List.takeWhile_append_dropWhile, List.takeWhile_append_dropWhile]
        · exact absurd h (by simp)
  · rintro ⟨hw, hword, sp, r, hdec, hsp, hws, hhl⟩
    subst hdec
    obtain ⟨c0, sp2, hsp2⟩ : ∃ c0 sp2, sp = c0 :: sp2 := by
      cases sp with
      | nil => exact absurd rfl hsp
      | cons a t => exact ⟨a, t, rfl⟩
    have hc0w : wordChar c0 = false := ws_not_word (hws c0 (by rw [hsp2]; simp))
    have htw : ((w ++ sp) ++ r).takeWhile wordChar = w := by
      rw [List.append_assoc, takeWhile_append_all wordChar w (sp ++ r) hword, hsp2]
      simp [List.takeWhile_cons, hc0w]
    obtain ⟨cr, r2, hr2, hcr⟩ := lowerStarts_highlight_head hhl
    simp only [matchColor]
    rw [htw, if_neg hw, List.append_assoc, List.drop_left]
    have htsp : (sp ++ r).takeWhile (fun c => c.isWhitespace) = sp := by
      rw [takeWhile_append_all _ sp r hws, hr2]
      simp [List.takeWhile_cons, hcr]
    rw [htsp, if_neg hsp, List.drop_left, if_pos hhl]

/-- C2: the parsed location and page are the first full pattern match of their
    label followed by a token with trailing commas stripped, the color is the
    leading word followed by the word highlight, matching is case-insensitive,
    and an absent pattern yields an empty field, never an error. -/
theorem c2_header_field_extraction (h : String) :
    ((parse_header h).location
      = match specFirstLabelTok ("location:".toList) h.toList with
        | some t => (rstripCommas t).asString
        | none => "")
    ∧ ((parse_header h).page
      = match specFirstLabelTok ("page:".toList) h.toList with
        | some t => (rstripCommas t).asString
        | none => "")
    ∧ (∀ w, matchColor h.toList = some w ↔ ColorSpec h.toList w)
    ∧ ((parse_header h).color
      = match matchColor h.toList with
        | some w => w.asString
        | none => "")
    ∧ parse_header "Page: 56, Location: 1234" = ⟨"", "56", "1234"⟩
    ∧ parse_header "Yellow highlight | Location: 42" = ⟨"Yellow", "", "42"⟩
    ∧ parse_header "YELLOW higHlighT | LOCATION: 7," = ⟨"YELLOW", "", "7"⟩
    ∧ parse_header "no patterns here" = ⟨"", "", ""⟩ := by
  refine ⟨?_, ?_, fun w => matchColor_iff h.toList w, rfl, by decide, by decide, by decide,
    by decide⟩
  · simp only [parse_header]
    rw [searchLabel_eq_spec]
  · simp only [parse_header]
    rw [searchLabel_eq_spec]
